import Mathlib

/-!
# Verification of the top-3 TPG core (fork of GEGELATI)

Shallow embedding of the core components of the `top-few-tpg-gegelati`
repository, together with theorems settling the specification claims.

Embedded source files:
* `tpg/tpgExecutionEngine.cpp` (modified top-3 engine): `evaluateEdge`,
  `evaluateTeam`, `executeFromRoot`;
* `tpg/tpgGraph.cpp`: `addNewEdge`, `removeEdge`, `removeVertex`;
* `learn/classificationLearningAgent.h`: the per-class reservation phase of
  `decimateWorstRoots`.

Machine `double` values are abstracted by `FVal` (NaN, -infinity, or a
finite value modelled by an integer); the claims only exercise order
comparisons, never floating-point arithmetic.
-/

namespace TPG

/-- Abstraction of the `double` values produced by a `Program`: `nan`,
negative infinity (produced by the engine's NaN filter), or a finite
value. Only order comparisons on these values matter to the engine. -/
inductive FVal where
  | nan : FVal
  | neginf : FVal
  | fin (v : Int) : FVal
deriving DecidableEq, Repr

/-- IEEE-754 `>=` on `FVal`: any comparison involving NaN is false;
`-inf >= -inf` holds; a finite value always exceeds `-inf`. -/
def FVal.ge : FVal → FVal → Bool
  | .neginf, .neginf => true
  | .neginf, .fin _ => false
  | .fin _, .neginf => true
  | .fin a, .fin b => b ≤ a
  | .nan, _ => false
  | _, .nan => false

/-- The NaN filter of `TPGExecutionEngine::evaluateEdge`:
`result = (std::isnan(result)) ? -inf : result`. -/
def nanFilter : FVal → FVal
  | .nan => .neginf
  | x => x

/-- A TPG edge as seen by the execution engine: a destination vertex
identifier and the identity of the `Program` it owns. -/
structure EngEdge where
  dest : Nat
  prog : Nat
deriving DecidableEq, Repr

/-- One archive recording: program identity, input snapshot, resulting bid
(`Archive::addRecording(&prog, dataSources, result)`). -/
structure Recording where
  prog : Nat
  snapshot : Nat
  bid : FVal
deriving DecidableEq, Repr

/-- Instrumented engine state: `evals` is the trace of every Program
execution performed (one entry per `ProgramExecutionEngine::executeProgram`
call), `arch` is the list of recordings forwarded to the Archive sink. -/
structure EngState where
  evals : List Recording
  arch : List Recording
deriving DecidableEq, Repr

/-- `TPGExecutionEngine::evaluateEdge`: execute the edge's Program (the
environment `env` maps program identities to their raw `double` result for
the current data sources), replace a NaN result with `-inf`, and forward
the recording to the Archive when one is attached (`archive != NULL`). -/
def evaluateEdge (env : Nat → FVal) (snap : Nat) (hasArchive : Bool)
    (s : EngState) (e : EngEdge) : FVal × EngState :=
  let result := nanFilter (env e.prog)
  let recd : Recording := ⟨e.prog, snap, result⟩
  (result, ⟨s.evals ++ [recd], if hasArchive then s.arch ++ [recd] else s.arch⟩)

/-- The three rank slots maintained by `evaluateTeam`'s selection loop. -/
structure Ranks where
  best : EngEdge
  secnd : EngEdge
  third : EngEdge
  bestBid : FVal
  secndBid : FVal
  thirdBid : FVal
deriving DecidableEq, Repr

/-- Loop body of `evaluateTeam` for one further outgoing edge: evaluate its
bid and update the three rank slots with the `>=` comparison cascade of the
source. -/
def evalStep (env : Nat → FVal) (snap : Nat) (hasArchive : Bool)
    (acc : Ranks × EngState) (edge : EngEdge) : Ranks × EngState :=
  let r := acc.1
  let (bid, s) := evaluateEdge env snap hasArchive acc.2 edge
  if FVal.ge bid r.bestBid then
    (⟨edge, r.best, r.secnd, bid, r.bestBid, r.secndBid⟩, s)
  else if FVal.ge bid r.secndBid then
    (⟨r.best, edge, r.secnd, r.bestBid, bid, r.secndBid⟩, s)
  else if FVal.ge bid r.thirdBid then
    (⟨r.best, r.secnd, edge, r.bestBid, r.secndBid, bid⟩, s)
  else
    (r, s)

/-- Failure outcomes of the execution engine. `emptyTeamError` is the
`EmptyTeam` failure named by the specification: the code never produces it.
`undefBehavior` marks C++ operations whose behaviour is undefined
(dereferencing the `begin()` iterator of an empty `std::list`).
`nonTermination` models a traversal that never reaches an Action (the
`while` loop of `executeFromRoot` not terminating; the fuel of the
embedding ran out). `indexOutOfRange` models `std::vector::at` throwing. -/
inductive EngineError where
  | emptyTeamError : EngineError
  | undefBehavior : EngineError
  | nonTermination : EngineError
  | indexOutOfRange : EngineError
deriving DecidableEq, Repr

/-- `TPGExecutionEngine::evaluateTeam`: initialise the three rank slots with
the first outgoing edge, evaluating that edge three times (once per bid
slot), then fold the comparison cascade over the remaining edges and return
`[best, second, third]`. On a team with zero outgoing edges the source
dereferences `*outgoingEdges.begin()` of an empty list, which is undefined
behaviour. -/
def evaluateTeam (env : Nat → FVal) (snap : Nat) (hasArchive : Bool)
    (s : EngState) (outgoingEdges : List EngEdge) :
    Except EngineError (List EngEdge × EngState) :=
  match outgoingEdges with
  | [] => .error .undefBehavior
  | e0 :: rest =>
    let (bestBid, s1) := evaluateEdge env snap hasArchive s e0
    let (secondBid, s2) := evaluateEdge env snap hasArchive s1 e0
    let (thirdBid, s3) := evaluateEdge env snap hasArchive s2 e0
    let init : Ranks × EngState := (⟨e0, e0, e0, bestBid, secondBid, thirdBid⟩, s3)
    let (r, s4) := rest.foldl (evalStep env snap hasArchive) init
    .ok ([r.best, r.secnd, r.third], s4)

/-- A vertex of the graph as seen by the execution engine: a Team carrying
its (ordered) outgoing edge list, or a terminal Action. -/
inductive EngVertex where
  | team (outgoing : List EngEdge) : EngVertex
  | action : EngVertex
deriving DecidableEq, Repr

/-- `TPGExecutionEngine::executeFromRoot`: push the current vertex, and
while it is a Team, evaluate it and push the destinations of the rank-3,
rank-2 and rank-1 edges in that order, continuing from the rank-1
destination. `fuel` bounds the number of Team expansions (the source
assumes the graph acyclic; a cyclic graph would loop forever). -/
def visit (g : Nat → EngVertex) (env : Nat → FVal) (snap : Nat)
    (hasArchive : Bool) :
    Nat → Nat → EngState → Except EngineError (List Nat × EngState)
  | 0, cur, s =>
    match g cur with
    | .action => .ok ([cur], s)
    | .team _ => .error .nonTermination
  | fuel + 1, cur, s =>
    match g cur with
    | .action => .ok ([cur], s)
    | .team edges =>
      match evaluateTeam env snap hasArchive s edges with
      | .error err => .error err
      | .ok (ranked, s1) =>
        match ranked with
        | best :: secnd :: third :: _ =>
          match visit g env snap hasArchive fuel best.dest s1 with
          | .error err => .error err
          | .ok (rest, s2) => .ok (cur :: third.dest :: secnd.dest :: rest, s2)
        | _ => .error .indexOutOfRange

/-- The recording produced by evaluating edge `e` against environment
`env` with input snapshot `snap`. -/
def recOf (env : Nat → FVal) (snap : Nat) (e : EngEdge) : Recording :=
  ⟨e.prog, snap, nanFilter (env e.prog)⟩

/-- Rank list returned by `evaluateTeam`, final state discarded
(convenience projection for stating selection results). -/
def ranksOf (env : Nat → FVal) (edges : List EngEdge) : Option (List EngEdge) :=
  match evaluateTeam env 0 false ⟨[], []⟩ edges with
  | .ok (r, _) => some r
  | .error _ => none

/-- Final engine state of a team evaluation, rank list discarded
(convenience projection for stating evaluation/archive traces). -/
def teamStateOf (env : Nat → FVal) (snap : Nat) (hasArchive : Bool)
    (s : EngState) (edges : List EngEdge) : Option EngState :=
  match evaluateTeam env snap hasArchive s edges with
  | .ok (_, s') => some s'
  | .error _ => none

/-- Environment giving bids 5, 5, 3, 1 to programs 0-3 (the tie-breaking
example of the specification). -/
def env5531 : Nat → FVal := fun p =>
  if p = 0 then .fin 5 else if p = 1 then .fin 5 else if p = 2 then .fin 3 else .fin 1

/-- Four outgoing edges owning programs 0-3 in evaluation order. -/
def edges5531 : List EngEdge := [⟨10, 0⟩, ⟨11, 1⟩, ⟨12, 2⟩, ⟨13, 3⟩]

/-- Environment giving bids 1 and 5 to programs 0 and 1 (two-edge team
example). -/
def env15 : Nat → FVal := fun p => if p = 0 then .fin 1 else .fin 5

/-- Example graph: vertex 0 is a Team with three edges leading to the
action vertices 1, 2 and 3; every other vertex is an Action. -/
def exGraph : Nat → EngVertex := fun n =>
  if n = 0 then .team [⟨1, 0⟩, ⟨2, 1⟩, ⟨3, 2⟩] else .action

/-- Environment whose bid for program `p` is the integer `p`. -/
def envId : Nat → FVal := fun p => .fin (p : Int)

end TPG

namespace Learn

/-- Per-root evaluation result of `ClassificationLearningAgent`: the root
vertex (by identifier) and its score vector, one score per class. Scores
are compared only, so they are modelled by integers. -/
structure ClsResult where
  root : Nat
  scores : List Int
deriving DecidableEq, Repr

/-- `std::multimap<double, const TPGVertex*>::emplace`: insert at the upper
bound of the key, i.e. after every entry whose key is less than or equal to
the new key; entries with equal keys keep their insertion order. -/
def mmInsert : List (Int × Nat) → Int → Nat → List (Int × Nat)
  | [], k, r => [(k, r)]
  | (k', r') :: rest, k, r =>
      if k < k' then (k, r) :: (k', r') :: rest
      else (k', r') :: mmInsert rest k r

/-- The `sortedRoot` multimap of `decimateWorstRoots` for class
`classIdx`: every result is emplaced with its score for that class as key
(`getScorePerClass().at(classIdx)`; the index is in range for well-formed
results, out-of-range access would throw). The list is in ascending key
order; the code then iterates it through `rbegin`, i.e. reversed. -/
def buildSorted (results : List ClsResult) (classIdx : Nat) : List (Int × Nat) :=
  results.foldl (fun m res => mmInsert m (res.scores.getD classIdx 0) res.root) []

/-- Inner reservation loop of `decimateWorstRoots`: perform exactly `n`
iterations (`for i < nbRootsKeptPerClass`), each pushing the current
candidate root onto `kept` when it is not already kept and advancing the
iterator no matter what. (The source would run the iterator past `rend`
if the map held fewer than `n` entries; the embedding stops instead, a
case no claim exercises.) -/
def keepLoop (kept : List Nat) : Nat → List (Int × Nat) → List Nat
  | 0, _ => kept
  | _ + 1, [] => kept
  | n + 1, (_, r) :: rest =>
      keepLoop (if r ∈ kept then kept else kept ++ [r]) n rest

/-- `nbRootsKeptPerClass = (nbRootsToKeep / getNbActions()) / 2` with
`uint64_t` (floor) division. -/
def nbRootsKeptPerClass (nbRootsToKeep nbClasses : Nat) : Nat :=
  nbRootsToKeep / nbClasses / 2

/-- Per-class reservation phase of `decimateWorstRoots` (the
`for classIdx < getNbActions()` loop): for each class, build the sorted
multimap and run the reservation loop over it from the best score
downwards, threading the accumulated `rootsToKeep`. -/
def perClassKeep (results : List ClsResult) (nbClasses n : Nat) : List Nat :=
  (List.range nbClasses).foldl
    (fun kept classIdx => keepLoop kept n ((buildSorted results classIdx).reverse)) []

/-- Two roots, two classes: root 0 scores 10 in both classes, root 1
scores 0 in class 0 and 5 in class 1. -/
def clsExample : List ClsResult := [⟨0, [10, 10]⟩, ⟨1, [0, 5]⟩]

end Learn

namespace TPG

/-- An edge owned by a `TPGGraph`: identity (pointer identity in the
source), source and destination vertex identities, owned program. -/
structure GEdge where
  eid : Nat
  src : Nat
  dst : Nat
  prog : Nat
deriving DecidableEq, Repr

/-- A vertex owned by a `TPGGraph`: identity, kind (Action or Team), and
the incoming/outgoing incidence sets of edge identities
(`std::set<TPGEdge*>` back-references in the source). -/
structure GVert where
  vid : Nat
  isAction : Bool
  inE : List Nat
  outE : List Nat
deriving DecidableEq, Repr

/-- `TPG::TPGGraph`: the owned vertex list and edge list (`std::list`, in
insertion order); `nextEid` produces fresh edge identities. -/
structure TPGGraph where
  verts : List GVert
  edges : List GEdge
  nextEid : Nat
deriving DecidableEq, Repr

/-- The identities of the registered vertices. -/
def vertIds (g : TPGGraph) : List Nat := g.verts.map (fun v => v.vid)

/-- The identities of the edges in the graph's edge collection. -/
def edgeIds (g : TPGGraph) : List Nat := g.edges.map (fun e => e.eid)

/-- `std::find_if` over the vertex list by pointer comparison. -/
def findVert (g : TPGGraph) (vid : Nat) : Option GVert :=
  g.verts.find? (fun v => v.vid = vid)

/-- Whether `find_if` over the vertex list succeeds (`!= end()`). -/
def hasVert (g : TPGGraph) (vid : Nat) : Bool :=
  (findVert g vid).isSome

/-- Apply `f` to the vertex record with identity `vid` (the source mutates
the found vertex object in place). -/
def updVert (g : TPGGraph) (vid : Nat) (f : GVert → GVert) : TPGGraph :=
  { g with verts := g.verts.map (fun v => if v.vid = vid then f v else v) }

/-- `std::set` insertion: add the element if absent. -/
def setIns (x : Nat) (l : List Nat) : List Nat :=
  if x ∈ l then l else l ++ [x]

/-- Modelled from the spec: `TPGVertex::addOutgoingEdge` and its override
`TPGAction::addOutgoingEdge` (tpgVertex.cpp / tpgAction.cpp are not among
the sources; the call site in `TPGGraph::addNewEdge` notes "May throw if
an outgoing edge is added to an action"). Per the spec, outgoing-edge
addition on an Action must fail; on a Team the edge joins the outgoing
set. -/
def addOutgoingEdgeOnVertex (v : GVert) (eid : Nat) : Option GVert :=
  if v.isAction then none else some { v with outE := setIns eid v.outE }

/-- Modelled from the spec: `TPGVertex::addIncomingEdge` (tpgVertex.cpp is
not among the sources). The edge joins the vertex's incoming set; every
vertex kind may receive incoming edges. -/
def addIncomingEdgeOnVertex (eid : Nat) (v : GVert) : GVert :=
  { v with inE := setIns eid v.inE }

/-- Failure outcomes of the graph operations. `invalidVertex` is the
`std::runtime_error` thrown when an endpoint is not registered;
`actionSource` the one rethrown when the source vertex is an Action;
`undefBehaviorGraph` marks C++ undefined behaviour
(`edges.erase(end())` in `removeEdge` when the edge is not found). -/
inductive GraphError where
  | invalidVertex : GraphError
  | actionSource : GraphError
  | undefBehaviorGraph : GraphError
deriving DecidableEq, Repr

/-- `TPGGraph::addNewEdge`: check that both endpoints are registered
(throwing `invalidVertex` otherwise, graph untouched), `emplace_back` the
edge, attach it to the source vertex — popping the edge back off and
rethrowing `actionSource` if the source is an Action — then attach it to
the destination vertex. Returns the thrown error or the new edge's
identity, together with the resulting graph state. -/
def addNewEdge (g : TPGGraph) (src dst prog : Nat) :
    Except GraphError Nat × TPGGraph :=
  if !(hasVert g dst) || !(hasVert g src) then (.error .invalidVertex, g)
  else
    let e : GEdge := ⟨g.nextEid, src, dst, prog⟩
    let g1 : TPGGraph := { g with edges := g.edges ++ [e], nextEid := g.nextEid + 1 }
    match findVert g1 src with
    | none => (.error .invalidVertex, g1)
    | some sv =>
      match addOutgoingEdgeOnVertex sv e.eid with
      | none => (.error .actionSource, { g1 with edges := g1.edges.dropLast })
      | some sv2 =>
        let g2 : TPGGraph :=
          { g1 with verts := g1.verts.map (fun v => if v.vid = src then sv2 else v) }
        let g3 := updVert g2 dst (addIncomingEdgeOnVertex e.eid)
        (.ok e.eid, g3)

/-- `TPGGraph::removeEdge`: find the edge; if found, detach it from its
source's outgoing set and its destination's incoming set (the source
assumes both endpoint vertices are registered), then erase it from the
edge collection. If the edge is NOT found, the source still executes
`this->edges.erase(iterator)` with `iterator == end()` — undefined
behaviour, modelled as `none`. -/
def removeEdge (g : TPGGraph) (eid : Nat) : Option TPGGraph :=
  match g.edges.find? (fun e => e.eid = eid) with
  | none => none
  | some e =>
    let g1 := updVert g e.src (fun v => { v with outE := v.outE.filter (fun x => x ≠ eid) })
    let g2 := updVert g1 e.dst (fun v => { v with inE := v.inE.filter (fun x => x ≠ eid) })
    some { g2 with edges := g2.edges.filter (fun e2 => e2.eid ≠ eid) }

/-- Fold `removeEdge` over a copied set of edge identities (the copied
`inEdgesToRemove` / `outEdgesToRemove` loops of `removeVertex`). -/
def foldRemove (g : TPGGraph) : List Nat → Option TPGGraph
  | [] => some g
  | eid :: rest =>
    match removeEdge g eid with
    | none => none
    | some g1 => foldRemove g1 rest

/-- `TPGGraph::removeVertex`: no-op when the vertex is not registered;
otherwise remove every edge of a copy of its incoming set, then every edge
of a copy of its (now updated) outgoing set, then erase the vertex
itself. -/
def removeVertex (g : TPGGraph) (vid : Nat) : Option TPGGraph :=
  match findVert g vid with
  | none => some g
  | some v =>
    match foldRemove g v.inE with
    | none => none
    | some g1 =>
      match findVert g1 vid with
      | none => none
      | some v1 =>
        match foldRemove g1 v1.outE with
        | none => none
        | some g2 =>
          some { g2 with verts := g2.verts.filter (fun w => w.vid ≠ vid) }

/-- One mutation call of a `add_edge`/`remove_vertex` call sequence. -/
inductive GOp where
  | addEdge (src dst prog : Nat) : GOp
  | removeV (vid : Nat) : GOp
deriving DecidableEq, Repr

/-- Apply one mutation call; the state effect of a failing `addNewEdge` is
the (rolled-back) graph it leaves behind. -/
def applyOp (g : TPGGraph) : GOp → Option TPGGraph
  | .addEdge s d p => some (addNewEdge g s d p).2
  | .removeV v => removeVertex g v

/-- Apply a finite call sequence left to right. -/
def applySeq : List GOp → TPGGraph → Option TPGGraph
  | [], g => some g
  | op :: ops, g =>
    match applyOp g op with
    | none => none
    | some g1 => applySeq ops g1

/-- Well-formedness of a `TPGGraph`: vertex identities are distinct, edge
identities are distinct and below the freshness counter, every edge's
endpoints are registered, the incidence sets and the edge collection agree
in both directions, and incidence sets hold no duplicates. -/
abbrev WF (g : TPGGraph) : Prop :=
  (vertIds g).Nodup ∧
  (edgeIds g).Nodup ∧
  (∀ e ∈ g.edges, e.eid < g.nextEid) ∧
  (∀ e ∈ g.edges, e.src ∈ vertIds g ∧ e.dst ∈ vertIds g) ∧
  (∀ v ∈ g.verts, ∀ i ∈ v.outE, ∃ e ∈ g.edges, e.eid = i ∧ e.src = v.vid) ∧
  (∀ v ∈ g.verts, ∀ i ∈ v.inE, ∃ e ∈ g.edges, e.eid = i ∧ e.dst = v.vid) ∧
  (∀ e ∈ g.edges, ∀ v ∈ g.verts, v.vid = e.src → e.eid ∈ v.outE) ∧
  (∀ e ∈ g.edges, ∀ v ∈ g.verts, v.vid = e.dst → e.eid ∈ v.inE) ∧
  (∀ v ∈ g.verts, v.outE.Nodup ∧ v.inE.Nodup)

/-- A concrete well-formed graph: Team 0 with an edge to Team 1, Team 1
with an edge to Action 2. -/
def exG : TPGGraph :=
  ⟨[⟨0, false, [], [0]⟩, ⟨1, false, [0], [1]⟩, ⟨2, true, [1], []⟩],
   [⟨0, 0, 1, 100⟩, ⟨1, 1, 2, 101⟩], 2⟩

end TPG

namespace TPG

/-- Effect of removing edge `eid` on one vertex record: the identity is
dropped from both incidence sets. -/
def detachV (eid : Nat) (v : GVert) : GVert :=
  ⟨v.vid, v.isAction, v.inE.filter (fun x => x ≠ eid), v.outE.filter (fun x => x ≠ eid)⟩

/-- Effect of removing every edge of the identity set `S` on one vertex
record. -/
def detachS (S : List Nat) (v : GVert) : GVert :=
  ⟨v.vid, v.isAction, v.inE.filter (fun x => x ∉ S), v.outE.filter (fun x => x ∉ S)⟩


end TPG


namespace TPG

/-! ## Lemmas about the execution engine -/

lemma nanFilter_ne_nan (x : FVal) : nanFilter x ≠ .nan := by
  cases x <;> simp [nanFilter]

lemma fge_self_of_ne_nan (x : FVal) (h : x ≠ .nan) : FVal.ge x x = true := by
  cases x <;> simp [FVal.ge] at h ⊢

lemma evalStep_state (env : Nat → FVal) (snap : Nat) (a : Bool)
    (r : Ranks) (s : EngState) (e : EngEdge) :
    (evalStep env snap a (r, s) e).2 =
      ⟨s.evals ++ [recOf env snap e],
       if a then s.arch ++ [recOf env snap e] else s.arch⟩ := by
  simp only [evalStep, evaluateEdge, recOf]
  split
  · rfl
  · split
    · rfl
    · split <;> rfl

lemma foldl_evalStep_state (env : Nat → FVal) (snap : Nat) (a : Bool)
    (l : List EngEdge) :
    ∀ (r : Ranks) (s : EngState),
      (l.foldl (evalStep env snap a) (r, s)).2 =
        ⟨s.evals ++ l.map (recOf env snap),
         if a then s.arch ++ l.map (recOf env snap) else s.arch⟩ := by
  induction l with
  | nil =>
    intro r s
    cases s
    cases a <;> simp
  | cons e es ih =>
    intro r s
    rw [List.foldl_cons]
    rcases hstep : evalStep env snap a (r, s) e with ⟨r', s'⟩
    have h1 := evalStep_state env snap a r s e
    rw [hstep] at h1
    simp only at h1
    subst h1
    rw [ih]
    cases a <;> simp

end TPG

namespace TPG

/-- C1 (counterexample): with bids `[5, 5, 3, 1]` on edges 0-3, the top-3
selection returns ranks (edge1, edge0, edge0), not (edge0, edge1, edge2) as
the claim states: the later edge wins the tie for rank 1. -/
theorem evaluateTeam_bids_5_5_3_1_counterexample :
    ranksOf env5531 edges5531 = some [⟨11, 1⟩, ⟨10, 0⟩, ⟨10, 0⟩] ∧
    ranksOf env5531 edges5531 ≠ some [⟨10, 0⟩, ⟨11, 1⟩, ⟨12, 2⟩] := by
  decide

/-- C1 (amended): ties are broken in favour of the later edge: a later edge
whose bid equals the current rank-1 bid displaces the holder, which is
pushed down to rank 2 (and the old rank-2 holder to rank 3). For bids
`[5, 5, 3, 1]` on edges 0-3 the selected ranks are (edge1, edge0, edge0):
edges 2 and 3 never enter ranks 2-3 because those slots were initialised
with the first edge's bid. -/
theorem evaluateTeam_tie_goes_to_later_edge :
    (∀ (env : Nat → FVal) (snap : Nat) (a : Bool) (s : EngState) (r : Ranks) (e : EngEdge),
        (evalStep env snap a ({r with bestBid := nanFilter (env e.prog)}, s) e).1 =
          ⟨e, r.best, r.secnd, nanFilter (env e.prog), nanFilter (env e.prog), r.secndBid⟩) ∧
    ranksOf env5531 edges5531 = some [⟨11, 1⟩, ⟨10, 0⟩, ⟨10, 0⟩] := by
  constructor
  · intro env snap a s r e
    have h : FVal.ge (nanFilter (env e.prog)) (nanFilter (env e.prog)) = true :=
      fge_self_of_ne_nan _ (nanFilter_ne_nan _)
    simp [evalStep, evaluateEdge, h]
  · decide

/-- C2 (counterexample): a team with a single outgoing edge triggers three
Program evaluations (the first edge is evaluated once per rank slot), not
one evaluation as the claim states. -/
theorem evaluateTeam_single_edge_three_evaluations :
    (teamStateOf env5531 0 true ⟨[], []⟩ [⟨10, 0⟩]).map (fun s => s.evals.length) = some 3 ∧
    (teamStateOf env5531 0 true ⟨[], []⟩ [⟨10, 0⟩]).map (fun s => s.evals.length) ≠ some 1 := by
  decide

/-- C2 (amended): one top-3 selection step on a team with `n = 1 + |rest|`
outgoing edges performs exactly `n + 2` Program evaluations — the first
edge is evaluated three times, every other edge exactly once, in
evaluation order — and forwards each of those evaluations to the attached
Archive sink exactly once (so the first edge's program is recorded three
times). -/
theorem evaluateTeam_evaluation_and_archive_trace :
    ∀ (env : Nat → FVal) (snap : Nat) (s : EngState) (e0 : EngEdge) (rest : List EngEdge),
      teamStateOf env snap true s (e0 :: rest) =
        some ⟨s.evals ++ (recOf env snap e0 :: recOf env snap e0 :: recOf env snap e0 ::
                rest.map (recOf env snap)),
              s.arch ++ (recOf env snap e0 :: recOf env snap e0 :: recOf env snap e0 ::
                rest.map (recOf env snap))⟩ := by
  intro env snap s e0 rest
  simp only [teamStateOf, evaluateTeam, evaluateEdge]
  rw [foldl_evalStep_state]
  simp [recOf, List.append_assoc]

end TPG

namespace TPG

/-- C3 (counterexample): on a Team with zero outgoing edges the engine does
not report an `EmptyTeam` error; it dereferences the `begin()` iterator of
the empty outgoing-edge list, which is undefined behaviour. -/
theorem evaluateTeam_empty_team_counterexample :
    evaluateTeam env5531 0 true ⟨[], []⟩ [] = .error .undefBehavior ∧
    evaluateTeam env5531 0 true ⟨[], []⟩ [] ≠ .error .emptyTeamError :=
  ⟨rfl, by simp [evaluateTeam]⟩

/-- C3 (amended): the engine performs no emptiness check: a traversal that
reaches a Team with zero outgoing edges dereferences `*outgoingEdges.begin()`
of an empty list — undefined behaviour — instead of failing with an
`EmptyTeam` error. -/
theorem evaluateTeam_empty_team_undefined_behavior :
    ∀ (env : Nat → FVal) (snap : Nat) (a : Bool) (s : EngState),
      evaluateTeam env snap a s [] = .error .undefBehavior :=
  fun _ _ _ _ => rfl

/-- C4 (counterexample): for a team with exactly two outgoing edges whose
bids are `[1, 5]`, the selection returns ranks (edge1, edge0, edge0): the
rank-3 edge is edge0, which is not the rank-1 (best) edge (edge1), contrary
to the claim. -/
theorem evaluateTeam_two_edges_counterexample :
    ranksOf env15 [⟨10, 0⟩, ⟨11, 1⟩] = some [⟨11, 1⟩, ⟨10, 0⟩, ⟨10, 0⟩] ∧
    (⟨10, 0⟩ : EngEdge) ≠ ⟨11, 1⟩ := by
  decide

/-- C4 (amended): the selection never indexes out of range — for every team
with at least one outgoing edge the returned rank vector has exactly three
entries — and with exactly two outgoing edges the missing slot is filled by
repeating the FIRST edge: ranks 2 and 3 both hold edge0 (which is the best
edge only when the second edge's bid does not reach the first's). -/
theorem evaluateTeam_short_team_fill :
    (∀ (env : Nat → FVal) (snap : Nat) (a : Bool) (s : EngState)
        (e0 : EngEdge) (rest : List EngEdge),
        (evaluateTeam env snap a s (e0 :: rest)).map (fun p => p.1.length) = .ok 3) ∧
    (∀ (env : Nat → FVal) (snap : Nat) (a : Bool) (s : EngState) (x y : EngEdge),
        (evaluateTeam env snap a s [x, y]).map (fun p => p.1) =
          .ok [if FVal.ge (nanFilter (env y.prog)) (nanFilter (env x.prog)) then y else x,
               x, x]) := by
  constructor
  · intro env snap a s e0 rest
    rfl
  · intro env snap a s x y
    rcases h : FVal.ge (nanFilter (env y.prog)) (nanFilter (env x.prog)) with _ | _
    · simp [evaluateTeam, evalStep, evaluateEdge, Except.map, h]
    · simp [evaluateTeam, evalStep, evaluateEdge, Except.map, h]

/-- C10: for every successful execution from a root, the visited-vertex
sequence starts with the root itself and has length `1 + 3 * k` (three
entries appended per Team expanded); executing from a root that is an
Action returns just `[root]` with the engine state untouched (no Program
evaluation, no Archive forwarding). -/
theorem executeFromRoot_visited_sequence_shape :
    (∀ (g : Nat → EngVertex) (env : Nat → FVal) (snap : Nat) (a : Bool)
        (fuel root : Nat) (s : EngState) (vs : List Nat) (s' : EngState),
        visit g env snap a fuel root s = .ok (vs, s') →
        vs.head? = some root ∧ ∃ k, vs.length = 3 * k + 1) ∧
    (∀ (g : Nat → EngVertex) (env : Nat → FVal) (snap : Nat) (a : Bool)
        (fuel root : Nat) (s : EngState), g root = .action →
        visit g env snap a fuel root s = .ok ([root], s)) := by
  constructor
  · intro g env snap a fuel
    induction fuel with
    | zero =>
      intro root s vs s' h
      rcases hg : g root with edges | _
      · simp only [visit, hg] at h
        exact absurd h (by simp)
      · simp only [visit, hg, Except.ok.injEq, Prod.mk.injEq] at h
        rcases h with ⟨hvs, hs⟩
        subst hvs
        exact ⟨rfl, 0, rfl⟩
    | succ fuel ih =>
      intro root s vs s' h
      rcases hg : g root with edges | _
      · simp only [visit, hg] at h
        split at h
        · exact absurd h (by simp)
        · split at h
          · split at h
            · exact absurd h (by simp)
            · next restl s2 hrec =>
              simp only [Except.ok.injEq, Prod.mk.injEq] at h
              rcases h with ⟨hvs, hs⟩
              obtain ⟨hhead, k, hk⟩ := ih _ _ restl s2 hrec
              subst hvs
              refine ⟨rfl, k + 1, ?_⟩
              simp only [List.length_cons, hk]
              ring
          · exact absurd h (by simp)
      · simp only [visit, hg, Except.ok.injEq, Prod.mk.injEq] at h
        rcases h with ⟨hvs, hs⟩
        subst hvs
        exact ⟨rfl, 0, rfl⟩
  · intro g env snap a fuel root s h
    cases fuel <;> simp [visit, h]

end TPG

namespace TPG

/-- Witness for `executeFromRoot_visited_sequence_shape` at a concrete
graph: expanding the Team root 0 once yields the sequence `[0, 1, 2, 3]`
(rank-3, rank-2, rank-1 destinations after the root), and executing from
the Action vertex 7 yields `[7]` with the engine state untouched. -/
theorem executeFromRoot_visited_sequence_shape_witness :
    (([0, 1, 2, 3] : List Nat).head? = some 0 ∧
      ∃ k, ([0, 1, 2, 3] : List Nat).length = 3 * k + 1) ∧
    visit exGraph envId 0 false 5 7 ⟨[], []⟩ = .ok ([7], ⟨[], []⟩) :=
  ⟨executeFromRoot_visited_sequence_shape.1 exGraph envId 0 false 5 0 ⟨[], []⟩
      [0, 1, 2, 3]
      ⟨[⟨0, 0, .fin 0⟩, ⟨0, 0, .fin 0⟩, ⟨0, 0, .fin 0⟩, ⟨1, 0, .fin 1⟩, ⟨2, 0, .fin 2⟩], []⟩
      rfl,
   executeFromRoot_visited_sequence_shape.2 exGraph envId 0 false 5 7 ⟨[], []⟩ rfl⟩

end TPG


namespace Learn

/-! ## Lemmas about the per-class reservation loop -/

lemma keepLoop_subset_append :
    ∀ (l : List (Int × Nat)) (n : Nat) (kept : List Nat),
      keepLoop kept n l ⊆ kept ++ (l.take n).map Prod.snd := by
  intro l
  induction l with
  | nil =>
    intro n kept x hx
    cases n <;> simpa [keepLoop] using hx
  | cons p rest ih =>
    intro n kept x hx
    rcases p with ⟨k, r⟩
    cases n with
    | zero => simpa [keepLoop] using hx
    | succ n =>
      simp only [keepLoop] at hx
      have hsub := ih n (if r ∈ kept then kept else kept ++ [r]) hx
      simp only [List.mem_append, List.take_succ_cons, List.map_cons, List.mem_cons] at hsub ⊢
      rcases hsub with hk | ht
      · split at hk
        · tauto
        · simp only [List.mem_append, List.mem_singleton] at hk
          tauto
      · tauto

lemma keepLoop_kept_subset :
    ∀ (l : List (Int × Nat)) (n : Nat) (kept : List Nat),
      kept ⊆ keepLoop kept n l := by
  intro l
  induction l with
  | nil =>
    intro n kept x hx
    cases n <;> simpa [keepLoop] using hx
  | cons p rest ih =>
    intro n kept x hx
    rcases p with ⟨k, r⟩
    cases n with
    | zero => simpa [keepLoop] using hx
    | succ n =>
      simp only [keepLoop]
      apply ih
      split
      · exact hx
      · exact List.mem_append_left _ hx

lemma keepLoop_take_subset :
    ∀ (l : List (Int × Nat)) (n : Nat) (kept : List Nat),
      (l.take n).map Prod.snd ⊆ keepLoop kept n l := by
  intro l
  induction l with
  | nil =>
    intro n kept x hx
    cases n <;> simp at hx
  | cons p rest ih =>
    intro n kept x hx
    rcases p with ⟨k, r⟩
    cases n with
    | zero => simp at hx
    | succ n =>
      simp only [List.take_succ_cons, List.map_cons, List.mem_cons] at hx
      simp only [keepLoop]
      rcases hx with hx | hx
      · subst hx
        apply keepLoop_kept_subset
        split
        · assumption
        · exact List.mem_append_right _ (List.mem_singleton.mpr rfl)
      · exact ih n _ hx

/-- C5 (counterexample): two roots, two classes, one keep-slot per class
(`to_keep = 4`, `nb_classes = 2`, so `floor(4 / 2 / 2) = 1`). Class 0
reserves root 0 (class-0 scores 10 vs 0). Class 1's best is also root 0
(class-1 scores 10 vs 5): it is already reserved, and its slot is consumed
without being refilled from the next-best root 1 — the per-class phase
reserves only `[0]`, not `[0, 1]` as the claim predicts. -/
theorem decimate_per_class_reserved_slot_lost :
    perClassKeep clsExample 2 (nbRootsKeptPerClass 4 2) = [0] ∧
    perClassKeep clsExample 2 (nbRootsKeptPerClass 4 2) ≠ [0, 1] := by
  decide

/-- C5 (amended): the per-class reservation scans each class's roots in
descending class-score order but examines exactly the first
`nbRootsKeptPerClass` candidates of a class: every root it reserves is
already kept or among that window, a candidate already reserved by another
class consumes one iteration without a replacement, and every root of the
window ends up reserved (once). Keep-slots lost to already-reserved roots
are NOT refilled from the next-best remaining roots of the class. -/
theorem decimate_per_class_scan_window :
    ∀ (kept : List Nat) (n : Nat) (l : List (Int × Nat)),
      keepLoop kept n l ⊆ kept ++ (l.take n).map Prod.snd ∧
      (l.take n).map Prod.snd ⊆ keepLoop kept n l ∧
      kept ⊆ keepLoop kept n l :=
  fun kept n l =>
    ⟨keepLoop_subset_append l n kept,
     keepLoop_take_subset l n kept,
     keepLoop_kept_subset l n kept⟩

end Learn


namespace TPG

/-! ## Basic lemmas about the graph embedding -/

lemma findVert_eq_some {g : TPGGraph} {vid : Nat} {v : GVert}
    (h : findVert g vid = some v) : v ∈ g.verts ∧ v.vid = vid := by
  refine ⟨List.mem_of_find?_eq_some h, ?_⟩
  have hp := List.find?_some h
  simpa using hp

lemma mem_vertIds {g : TPGGraph} {vid : Nat} :
    vid ∈ vertIds g ↔ ∃ v ∈ g.verts, v.vid = vid := by
  simp [vertIds]

lemma mem_edgeIds {g : TPGGraph} {i : Nat} :
    i ∈ edgeIds g ↔ ∃ e ∈ g.edges, e.eid = i := by
  simp [edgeIds]

lemma hasVert_iff {g : TPGGraph} {vid : Nat} :
    hasVert g vid = true ↔ vid ∈ vertIds g := by
  rw [hasVert, findVert, List.find?_isSome, mem_vertIds]
  simp

lemma find?_eq_some_of_unique {α : Type} {p : α → Bool} :
    ∀ {l : List α} {a : α}, a ∈ l → p a = true →
      (∀ b ∈ l, p b = true → b = a) → l.find? p = some a := by
  intro l
  induction l with
  | nil => simp
  | cons x xs ih =>
    intro a ha hpa huniq
    rcases List.mem_cons.mp ha with rfl | ha'
    · exact List.find?_cons_of_pos _ hpa
    · rcases hpx : p x with _ | _
      · rw [List.find?_cons_of_neg _ (by simp [hpx])]
        exact ih ha' hpa (fun b hb hpb => huniq b (List.mem_cons_of_mem _ hb) hpb)
      · have hxa : x = a := huniq x (List.mem_cons_self _ _) hpx
        subst hxa
        exact List.find?_cons_of_pos _ hpx

lemma edge_eq_of_eid {g : TPGGraph} (hwf : WF g) {e e' : GEdge}
    (he : e ∈ g.edges) (he' : e' ∈ g.edges) (h : e.eid = e'.eid) : e = e' :=
  List.inj_on_of_nodup_map hwf.2.1 he he' h

lemma vert_eq_of_vid {g : TPGGraph} (hwf : WF g) {v v' : GVert}
    (hv : v ∈ g.verts) (hv' : v' ∈ g.verts) (h : v.vid = v'.vid) : v = v' :=
  List.inj_on_of_nodup_map hwf.1 hv hv' h

lemma notMem_outE_of_src_ne {g : TPGGraph} (hwf : WF g) {e : GEdge} {v : GVert}
    (he : e ∈ g.edges) (hv : v ∈ g.verts) (hne : v.vid ≠ e.src) :
    e.eid ∉ v.outE := by
  intro hmem
  obtain ⟨e', he', heid, hsrc⟩ := hwf.2.2.2.2.1 v hv e.eid hmem
  have : e' = e := edge_eq_of_eid hwf he' he heid
  subst this
  exact hne hsrc.symm

lemma notMem_inE_of_dst_ne {g : TPGGraph} (hwf : WF g) {e : GEdge} {v : GVert}
    (he : e ∈ g.edges) (hv : v ∈ g.verts) (hne : v.vid ≠ e.dst) :
    e.eid ∉ v.inE := by
  intro hmem
  obtain ⟨e', he', heid, hdst⟩ := hwf.2.2.2.2.2.1 v hv e.eid hmem
  have : e' = e := edge_eq_of_eid hwf he' he heid
  subst this
  exact hne hdst.symm

end TPG


namespace TPG

lemma filter_ne_eq_self {l : List Nat} {i : Nat} (h : i ∉ l) :
    l.filter (fun x => !decide (x = i)) = l :=
  List.filter_eq_self.mpr (fun a ha => by
    simp only [Bool.not_eq_true', decide_eq_false_iff_not]
    exact fun hai => h (hai ▸ ha))

lemma removeEdge_char {g : TPGGraph} (hwf : WF g) {e : GEdge} (he : e ∈ g.edges) :
    removeEdge g e.eid =
      some ⟨g.verts.map (detachV e.eid),
            g.edges.filter (fun e2 => e2.eid ≠ e.eid),
            g.nextEid⟩ := by
  have hfind : g.edges.find? (fun e2 => e2.eid = e.eid) = some e :=
    find?_eq_some_of_unique he (by simp)
      (fun b hb hpb => edge_eq_of_eid hwf hb he (by simpa using hpb))
  rw [removeEdge, hfind]
  simp only [updVert, List.map_map, Option.some.injEq]
  refine TPGGraph.mk.injEq .. |>.mpr ⟨?_, rfl, rfl⟩
  apply List.map_congr_left
  intro v hv
  by_cases hsrc : v.vid = e.src
  · by_cases hdst : v.vid = e.dst
    · have hsd : e.dst = e.src := by rw [← hdst, hsrc]
      simp [Function.comp, detachV, hsrc, hdst, hsd]
    · have hin := filter_ne_eq_self (notMem_inE_of_dst_ne hwf he hv hdst)
      have hsd : ¬e.dst = e.src := fun h2 => hdst (by rw [hsrc, ← h2])
      simp [Function.comp, detachV, hsrc, hdst, hsd, hin]
  · have hout := filter_ne_eq_self (notMem_outE_of_src_ne hwf he hv hsrc)
    by_cases hdst : v.vid = e.dst
    · have hsd : ¬e.dst = e.src := fun h2 => hsrc (hdst.trans h2)
      simp [Function.comp, detachV, hsrc, hdst, hsd, hout]
    · have hin := filter_ne_eq_self (notMem_inE_of_dst_ne hwf he hv hdst)
      simp [Function.comp, detachV, hsrc, hdst, hout, hin]

end TPG

namespace TPG

lemma removeEdge_WF {g : TPGGraph} (hwf : WF g) {e : GEdge} (he : e ∈ g.edges) :
    WF (TPGGraph.mk (g.verts.map (detachV e.eid))
        (g.edges.filter (fun e2 => e2.eid ≠ e.eid)) g.nextEid) := by
  obtain ⟨hvN, heN, hfr, hend, houtI, hinI, heOut, heIn, hnd⟩ := hwf
  have hvIds : vertIds (TPGGraph.mk (g.verts.map (detachV e.eid))
      (g.edges.filter (fun e2 => e2.eid ≠ e.eid)) g.nextEid) = vertIds g := by
    simp [vertIds, List.map_map, detachV, Function.comp]
  refine ⟨?_, ?_, ?_, ?_, ?_, ?_, ?_, ?_, ?_⟩
  · rw [hvIds]
    exact hvN
  · exact List.Sublist.nodup (List.Sublist.map _ (List.filter_sublist _)) heN
  · intro e2 he2
    exact hfr e2 (List.mem_of_mem_filter he2)
  · intro e2 he2
    rw [hvIds]
    exact hend e2 (List.mem_of_mem_filter he2)
  · intro v' hv' i hi
    rw [List.mem_map] at hv'
    obtain ⟨v, hv, rfl⟩ := hv'
    rw [show (detachV e.eid v).outE = v.outE.filter (fun x => x ≠ e.eid) from rfl,
      List.mem_filter] at hi
    obtain ⟨hiv, hine⟩ := hi
    have hine' : i ≠ e.eid := by simpa using hine
    obtain ⟨e', he', heid, hsrc⟩ := houtI v hv i hiv
    exact ⟨e', List.mem_filter.mpr ⟨he', by simpa [heid] using hine'⟩, heid, hsrc⟩
  · intro v' hv' i hi
    rw [List.mem_map] at hv'
    obtain ⟨v, hv, rfl⟩ := hv'
    rw [show (detachV e.eid v).inE = v.inE.filter (fun x => x ≠ e.eid) from rfl,
      List.mem_filter] at hi
    obtain ⟨hiv, hine⟩ := hi
    have hine' : i ≠ e.eid := by simpa using hine
    obtain ⟨e', he', heid, hdst⟩ := hinI v hv i hiv
    exact ⟨e', List.mem_filter.mpr ⟨he', by simpa [heid] using hine'⟩, heid, hdst⟩
  · intro e2 he2 v' hv' hvid
    rw [List.mem_map] at hv'
    obtain ⟨v, hv, rfl⟩ := hv'
    have hne : e2.eid ≠ e.eid := by simpa using (List.mem_filter.mp he2).2
    have hmem := heOut e2 (List.mem_of_mem_filter he2) v hv hvid
    show e2.eid ∈ v.outE.filter (fun x => x ≠ e.eid)
    exact List.mem_filter.mpr ⟨hmem, by simpa using hne⟩
  · intro e2 he2 v' hv' hvid
    rw [List.mem_map] at hv'
    obtain ⟨v, hv, rfl⟩ := hv'
    have hne : e2.eid ≠ e.eid := by simpa using (List.mem_filter.mp he2).2
    have hmem := heIn e2 (List.mem_of_mem_filter he2) v hv hvid
    show e2.eid ∈ v.inE.filter (fun x => x ≠ e.eid)
    exact List.mem_filter.mpr ⟨hmem, by simpa using hne⟩
  · intro v' hv'
    rw [List.mem_map] at hv'
    obtain ⟨v, hv, rfl⟩ := hv'
    exact ⟨List.Nodup.filter _ (hnd v hv).1, List.Nodup.filter _ (hnd v hv).2⟩

end TPG

namespace TPG

lemma filter_notMem_cons (l : List Nat) (i : Nat) (S : List Nat) :
    (l.filter (fun x => x ≠ i)).filter (fun x => x ∉ S) =
      l.filter (fun x => x ∉ i :: S) := by
  rw [List.filter_filter]
  apply List.filter_congr
  intro a _
  by_cases h1 : a = i <;> by_cases h2 : a ∈ S <;> simp [h1, h2]

lemma filter_edge_notMem_cons (l : List GEdge) (i : Nat) (S : List Nat) :
    (l.filter (fun e => e.eid ≠ i)).filter (fun e => e.eid ∉ S) =
      l.filter (fun e => e.eid ∉ i :: S) := by
  rw [List.filter_filter]
  apply List.filter_congr
  intro a _
  by_cases h1 : a.eid = i <;> by_cases h2 : a.eid ∈ S <;> simp [h1, h2]

lemma detach_comp (i : Nat) (S : List Nat) (v : GVert) :
    detachS S (detachV i v) = detachS (i :: S) v := by
  cases v
  simp only [detachS, detachV, GVert.mk.injEq, true_and]
  exact ⟨filter_notMem_cons .., filter_notMem_cons ..⟩

lemma detachS_nil (v : GVert) : detachS [] v = v := by
  cases v
  simp [detachS]

lemma graph_detach_nil (g : TPGGraph) :
    TPGGraph.mk (g.verts.map (detachS []))
      (g.edges.filter (fun e => e.eid ∉ ([] : List Nat))) g.nextEid = g := by
  cases g with
  | mk vs es ne =>
    simp only [TPGGraph.mk.injEq]
    refine ⟨?_, ?_, trivial⟩
    · rw [List.map_congr_left (fun v _ => detachS_nil v)]
      simp
    · exact List.filter_eq_self.mpr (fun a _ => by simp)

lemma foldRemove_spec :
    ∀ (S : List Nat) (g : TPGGraph), WF g → S.Nodup →
      (∀ i ∈ S, i ∈ edgeIds g) →
      foldRemove g S =
        some (TPGGraph.mk (g.verts.map (detachS S))
          (g.edges.filter (fun e => e.eid ∉ S)) g.nextEid) ∧
      WF (TPGGraph.mk (g.verts.map (detachS S))
          (g.edges.filter (fun e => e.eid ∉ S)) g.nextEid) := by
  intro S
  induction S with
  | nil =>
    intro g hwf _ _
    rw [graph_detach_nil g]
    exact ⟨rfl, hwf⟩
  | cons i rest ih =>
    intro g hwf hnd hsub
    obtain ⟨e, he, heid⟩ := mem_edgeIds.mp (hsub i (List.mem_cons_self _ _))
    subst heid
    have hchar := removeEdge_char hwf he
    have hWF1 := removeEdge_WF hwf he
    have hndc := List.nodup_cons.mp hnd
    have hsub' : ∀ j ∈ rest,
        j ∈ edgeIds (TPGGraph.mk (g.verts.map (detachV e.eid))
          (g.edges.filter (fun e2 => e2.eid ≠ e.eid)) g.nextEid) := by
      intro j hj
      obtain ⟨e', he', heq'⟩ := mem_edgeIds.mp (hsub j (List.mem_cons_of_mem _ hj))
      have hjne : j ≠ e.eid := fun hcon => hndc.1 (hcon ▸ hj)
      refine mem_edgeIds.mpr ⟨e', List.mem_filter.mpr ⟨he', ?_⟩, heq'⟩
      simpa [heq'] using hjne
    obtain ⟨heq, hwf'⟩ := ih _ hWF1 hndc.2 hsub'
    have hrec : TPGGraph.mk
        ((g.verts.map (detachV e.eid)).map (detachS rest))
        ((g.edges.filter (fun e2 => e2.eid ≠ e.eid)).filter (fun e2 => e2.eid ∉ rest))
        g.nextEid =
      TPGGraph.mk (g.verts.map (detachS (e.eid :: rest)))
        (g.edges.filter (fun e2 => e2.eid ∉ e.eid :: rest)) g.nextEid := by
      simp only [TPGGraph.mk.injEq]
      refine ⟨?_, filter_edge_notMem_cons .., trivial⟩
      rw [List.map_map]
      exact List.map_congr_left (fun v _ => detach_comp e.eid rest v)
    constructor
    · show foldRemove g (e.eid :: rest) = _
      simp only [foldRemove]
      rw [hchar]
      show foldRemove _ rest = _
      rw [heq, hrec]
    · rw [← hrec]
      exact hwf'

end TPG

namespace TPG

lemma mem_outE_iff {g : TPGGraph} (hwf : WF g) {v : GVert} (hv : v ∈ g.verts)
    {e : GEdge} (he : e ∈ g.edges) : e.eid ∈ v.outE ↔ e.src = v.vid := by
  constructor
  · intro hmem
    obtain ⟨e', he', heid, hsrc⟩ := hwf.2.2.2.2.1 v hv e.eid hmem
    have heq := edge_eq_of_eid hwf he' he heid
    subst heq
    exact hsrc
  · intro hsrc
    exact hwf.2.2.2.2.2.2.1 e he v hv hsrc.symm

lemma mem_inE_iff {g : TPGGraph} (hwf : WF g) {v : GVert} (hv : v ∈ g.verts)
    {e : GEdge} (he : e ∈ g.edges) : e.eid ∈ v.inE ↔ e.dst = v.vid := by
  constructor
  · intro hmem
    obtain ⟨e', he', heid, hdst⟩ := hwf.2.2.2.2.2.1 v hv e.eid hmem
    have heq := edge_eq_of_eid hwf he' he heid
    subst heq
    exact hdst
  · intro hdst
    exact hwf.2.2.2.2.2.2.2.1 e he v hv hdst.symm

lemma removeVertex_spec {g : TPGGraph} (hwf : WF g) (vid : Nat) :
    ∃ g', removeVertex g vid = some g' ∧ WF g' ∧
      g'.edges = g.edges.filter (fun e => ¬(e.src = vid ∨ e.dst = vid)) ∧
      g'.verts.length = (g.verts.filter (fun v => v.vid ≠ vid)).length := by
  rcases hfind : findVert g vid with _ | v
  · -- vertex not registered: no-op
    have hnotin : vid ∉ vertIds g := by
      intro hmem
      obtain ⟨w, hw, hweq⟩ := mem_vertIds.mp hmem
      have := List.find?_eq_none.mp hfind w hw
      simp [hweq] at this
    refine ⟨g, by rw [removeVertex, hfind], hwf, ?_, ?_⟩
    · refine (List.filter_eq_self.mpr ?_).symm
      intro e he
      have hend := hwf.2.2.2.1 e he
      have h1 : e.src ≠ vid := fun hc => hnotin (hc ▸ hend.1)
      have h2 : e.dst ≠ vid := fun hc => hnotin (hc ▸ hend.2)
      simp [h1, h2]
    · refine congrArg List.length (List.filter_eq_self.mpr ?_).symm
      intro w hw
      have : w.vid ≠ vid := fun hc => hnotin (hc ▸ mem_vertIds.mpr ⟨w, hw, rfl⟩)
      simpa using this
  · -- vertex found
    obtain ⟨hv, hveq⟩ := findVert_eq_some hfind
    have hnd9 := hwf.2.2.2.2.2.2.2.2 v hv
    -- phase 1: remove the incoming edges
    have hS1sub : ∀ i ∈ v.inE, i ∈ edgeIds g := by
      intro i hi
      obtain ⟨e, he, heid, _⟩ := hwf.2.2.2.2.2.1 v hv i hi
      exact mem_edgeIds.mpr ⟨e, he, heid⟩
    obtain ⟨h1eq, h1wf⟩ := foldRemove_spec v.inE g hwf hnd9.2 hS1sub
    -- the vertex record after phase 1
    have hfind1 : findVert (TPGGraph.mk (g.verts.map (detachS v.inE))
        (g.edges.filter (fun e => e.eid ∉ v.inE)) g.nextEid) vid =
        some (detachS v.inE v) := by
      show (g.verts.map (detachS v.inE)).find? (fun w => w.vid = vid) = _
      rw [List.find?_map]
      have hf : g.verts.find?
          ((fun w : GVert => decide (w.vid = vid)) ∘ detachS v.inE) = some v := hfind
      rw [hf]
      rfl
    -- phase 2: remove the remaining outgoing edges
    have hS2nd : (v.outE.filter (fun x => x ∉ v.inE)).Nodup :=
      List.Nodup.filter _ hnd9.1
    have hS2sub : ∀ i ∈ v.outE.filter (fun x => x ∉ v.inE),
        i ∈ edgeIds (TPGGraph.mk (g.verts.map (detachS v.inE))
          (g.edges.filter (fun e => e.eid ∉ v.inE)) g.nextEid) := by
      intro i hi
      rw [List.mem_filter] at hi
      obtain ⟨hiout, hinotin⟩ := hi
      have hinotin' : i ∉ v.inE := by simpa using hinotin
      obtain ⟨e, he, heid, _⟩ := hwf.2.2.2.2.1 v hv i hiout
      exact mem_edgeIds.mpr
        ⟨e, List.mem_filter.mpr ⟨he, by simpa [heid] using hinotin'⟩, heid⟩
    obtain ⟨h2eq, h2wf⟩ := foldRemove_spec (v.outE.filter (fun x => x ∉ v.inE))
      (TPGGraph.mk (g.verts.map (detachS v.inE))
        (g.edges.filter (fun e => e.eid ∉ v.inE)) g.nextEid) h1wf hS2nd hS2sub
    -- the computation of removeVertex
    have hcompute : removeVertex g vid =
        some (TPGGraph.mk
          ((((g.verts.map (detachS v.inE)).map
              (detachS (v.outE.filter (fun x => x ∉ v.inE)))).filter
            (fun w => w.vid ≠ vid)))
          ((g.edges.filter (fun e => e.eid ∉ v.inE)).filter
            (fun e => e.eid ∉ v.outE.filter (fun x => x ∉ v.inE)))
          g.nextEid) := by
      rw [removeVertex, hfind]
      show (match foldRemove g v.inE with
        | none => none
        | some g1 =>
          match findVert g1 vid with
          | none => none
          | some v1 =>
            match foldRemove g1 v1.outE with
            | none => none
            | some g2 =>
              some { g2 with verts := g2.verts.filter (fun w => w.vid ≠ vid) }) = _
      rw [h1eq]
      show (match findVert (TPGGraph.mk (g.verts.map (detachS v.inE))
            (g.edges.filter (fun e => e.eid ∉ v.inE)) g.nextEid) vid with
          | none => none
          | some v1 =>
            match foldRemove (TPGGraph.mk (g.verts.map (detachS v.inE))
              (g.edges.filter (fun e => e.eid ∉ v.inE)) g.nextEid) v1.outE with
            | none => none
            | some g2 =>
              some { g2 with verts := g2.verts.filter (fun w => w.vid ≠ vid) }) = _
      rw [hfind1]
      show (match foldRemove (TPGGraph.mk (g.verts.map (detachS v.inE))
            (g.edges.filter (fun e => e.eid ∉ v.inE)) g.nextEid)
            (v.outE.filter (fun x => x ∉ v.inE)) with
          | none => none
          | some g2 =>
            some { g2 with verts := g2.verts.filter (fun w => w.vid ≠ vid) }) = _
      rw [h2eq]
    -- characterisation of the final edge collection
    have hedges : (g.edges.filter (fun e => e.eid ∉ v.inE)).filter
          (fun e => e.eid ∉ v.outE.filter (fun x => x ∉ v.inE)) =
        g.edges.filter (fun e => ¬(e.src = vid ∨ e.dst = vid)) := by
      rw [List.filter_filter]
      apply List.filter_congr
      intro e he
      have h1 := mem_inE_iff hwf hv he
      have h2 := mem_outE_iff hwf hv he
      by_cases hs : e.src = vid <;> by_cases hd : e.dst = vid <;>
        simp [List.mem_filter, h1, h2, hveq, hs, hd]
    -- well-formedness of the final graph
    have hG2wf := h2wf
    obtain ⟨n1, n2, n3, n4, n5, n6, n7, n8, n9⟩ := hG2wf
    refine ⟨_, hcompute, ⟨?_, n2, ?_, ?_, ?_, ?_, ?_, ?_, ?_⟩, hedges, ?_⟩
    · -- vertex identities stay distinct after dropping the vertex
      exact List.Sublist.nodup
        (List.Sublist.map _ (List.filter_sublist _)) n1
    · -- freshness
      intro e he
      exact n3 e he
    · -- endpoints still registered
      intro e he
      have hcond := n4 e he
      have hni : e.src ≠ vid ∧ e.dst ≠ vid := by
        rw [show (TPGGraph.mk
            ((g.verts.map (detachS v.inE)).map
              (detachS (v.outE.filter (fun x => x ∉ v.inE))))
            ((g.edges.filter (fun e => e.eid ∉ v.inE)).filter
              (fun e => e.eid ∉ v.outE.filter (fun x => x ∉ v.inE)))
            g.nextEid).edges =
          (g.edges.filter (fun e => e.eid ∉ v.inE)).filter
            (fun e => e.eid ∉ v.outE.filter (fun x => x ∉ v.inE)) from rfl,
          hedges] at he
        have := (List.mem_filter.mp he).2
        simp only [decide_eq_true_eq, not_or] at this
        exact this
      constructor
      · obtain ⟨w, hw, hweq⟩ := mem_vertIds.mp hcond.1
        exact mem_vertIds.mpr ⟨w, List.mem_filter.mpr ⟨hw, by simp [hweq, hni.1]⟩, hweq⟩
      · obtain ⟨w, hw, hweq⟩ := mem_vertIds.mp hcond.2
        exact mem_vertIds.mpr ⟨w, List.mem_filter.mpr ⟨hw, by simp [hweq, hni.2]⟩, hweq⟩
    · -- outgoing incidence
      intro w hw i hi
      exact n5 w (List.mem_of_mem_filter hw) i hi
    · -- incoming incidence
      intro w hw i hi
      exact n6 w (List.mem_of_mem_filter hw) i hi
    · -- edges present in outgoing sets
      intro e he w hw hwe
      exact n7 e he w (List.mem_of_mem_filter hw) hwe
    · -- edges present in incoming sets
      intro e he w hw hwe
      exact n8 e he w (List.mem_of_mem_filter hw) hwe
    · -- incidence nodups
      intro w hw
      exact n9 w (List.mem_of_mem_filter hw)
    · -- vertex count
      rw [List.map_map, List.filter_map, List.length_map]
      apply congrArg List.length
      apply List.filter_congr
      intro a _
      rfl

end TPG

namespace TPG

lemma mem_setIns {i x : Nat} {l : List Nat} : i ∈ setIns x l ↔ i ∈ l ∨ i = x := by
  unfold setIns
  split
  · rename_i hmem
    constructor
    · exact Or.inl
    · rintro (h | rfl)
      · exact h
      · exact hmem
  · simp [List.mem_append]

lemma setIns_nodup {x : Nat} {l : List Nat} (h : l.Nodup) : (setIns x l).Nodup := by
  unfold setIns
  split
  · exact h
  · rename_i hx
    simp [List.nodup_append, h, hx]

lemma addNewEdge_invalid {g : TPGGraph} {s d p : Nat}
    (h : hasVert g s = false ∨ hasVert g d = false) :
    addNewEdge g s d p = (.error .invalidVertex, g) := by
  rw [addNewEdge, if_pos]
  rcases h with h | h <;> simp [h]

lemma addNewEdge_action_compute {g : TPGGraph} {s d p : Nat} {sv : GVert}
    (hfs : findVert g s = some sv) (hact : sv.isAction = true)
    (hd : hasVert g d = true) :
    addNewEdge g s d p =
      (.error .actionSource,
       TPGGraph.mk g.verts ((g.edges ++ [(⟨g.nextEid, s, d, p⟩ : GEdge)]).dropLast)
         (g.nextEid + 1)) := by
  have hs : hasVert g s = true := by rw [hasVert, hfs]; rfl
  rw [addNewEdge, if_neg (by simp [hs, hd])]
  simp only [show findVert (TPGGraph.mk g.verts
      (g.edges ++ [(⟨g.nextEid, s, d, p⟩ : GEdge)]) (g.nextEid + 1)) s = some sv from hfs,
    show addOutgoingEdgeOnVertex sv g.nextEid = none from by
      simp [addOutgoingEdgeOnVertex, hact]]

lemma addNewEdge_ok_compute {g : TPGGraph} {s d p : Nat} {sv : GVert}
    (hfs : findVert g s = some sv) (hact : sv.isAction = false)
    (hd : hasVert g d = true) :
    addNewEdge g s d p =
      (.ok g.nextEid,
       TPGGraph.mk
         ((g.verts.map (fun v => if v.vid = s then
             { sv with outE := setIns g.nextEid sv.outE } else v)).map
           (fun v => if v.vid = d then
             { v with inE := setIns g.nextEid v.inE } else v))
         (g.edges ++ [(⟨g.nextEid, s, d, p⟩ : GEdge)]) (g.nextEid + 1)) := by
  have hs : hasVert g s = true := by rw [hasVert, hfs]; rfl
  rw [addNewEdge, if_neg (by simp [hs, hd])]
  simp only [show findVert (TPGGraph.mk g.verts
      (g.edges ++ [(⟨g.nextEid, s, d, p⟩ : GEdge)]) (g.nextEid + 1)) s = some sv from hfs,
    show addOutgoingEdgeOnVertex sv g.nextEid =
        some { sv with outE := setIns g.nextEid sv.outE } from by
      simp [addOutgoingEdgeOnVertex, hact]]
  rfl

end TPG

namespace TPG

lemma addNewEdge_ok_WF {g : TPGGraph} (hwf : WF g) {s d p : Nat} {sv : GVert}
    (hfs : findVert g s = some sv) (hd : hasVert g d = true) :
    WF (TPGGraph.mk
      ((g.verts.map (fun v => if v.vid = s then
          { sv with outE := setIns g.nextEid sv.outE } else v)).map
        (fun v => if v.vid = d then
          { v with inE := setIns g.nextEid v.inE } else v))
      (g.edges ++ [(⟨g.nextEid, s, d, p⟩ : GEdge)]) (g.nextEid + 1)) := by
  obtain ⟨hsv, hsveq⟩ := findVert_eq_some hfs
  have w1 := hwf.1
  have w2 := hwf.2.1
  have w3 := hwf.2.2.1
  have w4 := hwf.2.2.2.1
  have w5 := hwf.2.2.2.2.1
  have w6 := hwf.2.2.2.2.2.1
  have w7 := hwf.2.2.2.2.2.2.1
  have w8 := hwf.2.2.2.2.2.2.2.1
  have w9 := hwf.2.2.2.2.2.2.2.2
  set f1 : GVert → GVert := fun v => if v.vid = s then
      { sv with outE := setIns g.nextEid sv.outE } else v with hf1
  set f2 : GVert → GVert := fun v => if v.vid = d then
      { v with inE := setIns g.nextEid v.inE } else v with hf2
  have huniqv : ∀ v ∈ g.verts, v.vid = s → v = sv := fun v hv hveq =>
    List.inj_on_of_nodup_map w1 hv hsv (by rw [hveq, hsveq])
  have hvid1 : ∀ v : GVert, (f1 v).vid = v.vid := by
    intro v
    rw [hf1]
    by_cases h : v.vid = s <;> simp [h, hsveq]
  have hvid2 : ∀ v : GVert, (f2 v).vid = v.vid := by
    intro v
    rw [hf2]
    by_cases h : v.vid = d <;> simp [h]
  have hvid12 : ∀ v : GVert, (f2 (f1 v)).vid = v.vid := by
    intro v
    rw [hvid2, hvid1]
  have houtE : ∀ v ∈ g.verts, (f2 (f1 v)).outE =
      if v.vid = s then setIns g.nextEid v.outE else v.outE := by
    intro v hv
    have h2 : (f2 (f1 v)).outE = (f1 v).outE := by
      rw [hf2]
      by_cases h : (f1 v).vid = d <;> simp [h]
    rw [h2, hf1]
    by_cases h : v.vid = s
    · have hveq := huniqv v hv h
      subst hveq
      simp [h]
    · simp [h]
  have hinE : ∀ v ∈ g.verts, (f2 (f1 v)).inE =
      if v.vid = d then setIns g.nextEid v.inE else v.inE := by
    intro v hv
    have h1 : (f1 v).inE = v.inE := by
      rw [hf1]
      by_cases h : v.vid = s
      · have hveq := huniqv v hv h
        subst hveq
        simp [h]
      · simp [h]
    have h1v : (f1 v).vid = v.vid := hvid1 v
    rw [hf2]
    by_cases h : v.vid = d <;> simp [h1v, h, h1]
  have hvIds : vertIds (TPGGraph.mk ((g.verts.map f1).map f2)
      (g.edges ++ [(⟨g.nextEid, s, d, p⟩ : GEdge)]) (g.nextEid + 1)) = vertIds g := by
    show ((g.verts.map f1).map f2).map (fun v => v.vid) = g.verts.map (fun v => v.vid)
    rw [List.map_map, List.map_map]
    apply List.map_congr_left
    intro v _
    exact hvid12 v
  refine ⟨?_, ?_, ?_, ?_, ?_, ?_, ?_, ?_, ?_⟩
  · rw [hvIds]
    exact w1
  · show ((g.edges ++ [(⟨g.nextEid, s, d, p⟩ : GEdge)]).map (fun e => e.eid)).Nodup
    rw [List.map_append]
    rw [List.nodup_append]
    refine ⟨w2, by simp, ?_⟩
    intro a ha
    obtain ⟨e', he', heq⟩ := mem_edgeIds.mp ha
    have hlt := w3 e' he'
    simp only [List.map_cons, List.map_nil, List.mem_singleton]
    omega
  · intro e2 he2
    rcases List.mem_append.mp he2 with hold | hnew
    · exact Nat.lt_succ_of_lt (w3 e2 hold)
    · rw [List.mem_singleton.mp hnew]
      exact Nat.lt_succ_self _
  · intro e2 he2
    rw [hvIds]
    rcases List.mem_append.mp he2 with hold | hnew
    · exact w4 e2 hold
    · rw [List.mem_singleton.mp hnew]
      exact ⟨mem_vertIds.mpr ⟨sv, hsv, hsveq⟩, hasVert_iff.mp hd⟩
  · intro v3 hv3 i hi
    obtain ⟨v1x, hv1x, rfl⟩ := List.mem_map.mp hv3
    obtain ⟨v, hv, rfl⟩ := List.mem_map.mp hv1x
    rw [houtE v hv] at hi
    by_cases hvs : v.vid = s
    · rw [if_pos hvs] at hi
      rcases mem_setIns.mp hi with hio | hieq
      · obtain ⟨e', he', heq, hsrc⟩ := w5 v hv i hio
        exact ⟨e', List.mem_append_left _ he', heq, by rw [hvid12 v]; exact hsrc⟩
      · subst hieq
        refine ⟨⟨g.nextEid, s, d, p⟩, List.mem_append_right _ (by simp), rfl, ?_⟩
        rw [hvid12 v]
        exact hvs.symm
    · rw [if_neg hvs] at hi
      obtain ⟨e', he', heq, hsrc⟩ := w5 v hv i hi
      exact ⟨e', List.mem_append_left _ he', heq, by rw [hvid12 v]; exact hsrc⟩
  · intro v3 hv3 i hi
    obtain ⟨v1x, hv1x, rfl⟩ := List.mem_map.mp hv3
    obtain ⟨v, hv, rfl⟩ := List.mem_map.mp hv1x
    rw [hinE v hv] at hi
    by_cases hvd : v.vid = d
    · rw [if_pos hvd] at hi
      rcases mem_setIns.mp hi with hio | hieq
      · obtain ⟨e', he', heq, hdst⟩ := w6 v hv i hio
        exact ⟨e', List.mem_append_left _ he', heq, by rw [hvid12 v]; exact hdst⟩
      · subst hieq
        refine ⟨⟨g.nextEid, s, d, p⟩, List.mem_append_right _ (by simp), rfl, ?_⟩
        rw [hvid12 v]
        exact hvd.symm
    · rw [if_neg hvd] at hi
      obtain ⟨e', he', heq, hdst⟩ := w6 v hv i hi
      exact ⟨e', List.mem_append_left _ he', heq, by rw [hvid12 v]; exact hdst⟩
  · intro e2 he2 v3 hv3 hveq3
    obtain ⟨v1x, hv1x, rfl⟩ := List.mem_map.mp hv3
    obtain ⟨v, hv, rfl⟩ := List.mem_map.mp hv1x
    rw [hvid12 v] at hveq3
    rw [houtE v hv]
    rcases List.mem_append.mp he2 with hold | hnew
    · have hmem := w7 e2 hold v hv hveq3
      by_cases hvs : v.vid = s
      · rw [if_pos hvs]
        exact mem_setIns.mpr (Or.inl hmem)
      · rw [if_neg hvs]
        exact hmem
    · rw [List.mem_singleton.mp hnew] at hveq3 ⊢
      rw [if_pos hveq3]
      exact mem_setIns.mpr (Or.inr rfl)
  · intro e2 he2 v3 hv3 hveq3
    obtain ⟨v1x, hv1x, rfl⟩ := List.mem_map.mp hv3
    obtain ⟨v, hv, rfl⟩ := List.mem_map.mp hv1x
    rw [hvid12 v] at hveq3
    rw [hinE v hv]
    rcases List.mem_append.mp he2 with hold | hnew
    · have hmem := w8 e2 hold v hv hveq3
      by_cases hvd : v.vid = d
      · rw [if_pos hvd]
        exact mem_setIns.mpr (Or.inl hmem)
      · rw [if_neg hvd]
        exact hmem
    · rw [List.mem_singleton.mp hnew] at hveq3 ⊢
      rw [if_pos hveq3]
      exact mem_setIns.mpr (Or.inr rfl)
  · intro v3 hv3
    obtain ⟨v1x, hv1x, rfl⟩ := List.mem_map.mp hv3
    obtain ⟨v, hv, rfl⟩ := List.mem_map.mp hv1x
    constructor
    · rw [houtE v hv]
      by_cases hvs : v.vid = s
      · rw [if_pos hvs]
        exact setIns_nodup (w9 v hv).1
      · rw [if_neg hvs]
        exact (w9 v hv).1
    · rw [hinE v hv]
      by_cases hvd : v.vid = d
      · rw [if_pos hvd]
        exact setIns_nodup (w9 v hv).2
      · rw [if_neg hvd]
        exact (w9 v hv).2

end TPG

namespace TPG

lemma addNewEdge_preserves_WF {g : TPGGraph} (hwf : WF g) (s d p : Nat) :
    WF (addNewEdge g s d p).2 := by
  rcases hs : hasVert g s with _ | _
  · rw [addNewEdge_invalid (Or.inl hs)]
    exact hwf
  · rcases hd : hasVert g d with _ | _
    · rw [addNewEdge_invalid (Or.inr hd)]
      exact hwf
    · rcases hfs : findVert g s with _ | sv
      · exfalso
        rw [hasVert, hfs] at hs
        exact absurd hs (by simp)
      · rcases hact : sv.isAction with _ | _
        · rw [addNewEdge_ok_compute hfs hact hd]
          exact addNewEdge_ok_WF hwf hfs hd
        · rw [addNewEdge_action_compute hfs hact hd]
          rw [List.dropLast_concat]
          exact ⟨hwf.1, hwf.2.1, fun e he => Nat.lt_succ_of_lt (hwf.2.2.1 e he),
            hwf.2.2.2.1, hwf.2.2.2.2.1, hwf.2.2.2.2.2.1, hwf.2.2.2.2.2.2.1,
            hwf.2.2.2.2.2.2.2.1, hwf.2.2.2.2.2.2.2.2⟩

lemma applyOp_preserves_WF {g : TPGGraph} (hwf : WF g) (op : GOp) :
    ∃ g', applyOp g op = some g' ∧ WF g' := by
  cases op with
  | addEdge s d p => exact ⟨_, rfl, addNewEdge_preserves_WF hwf s d p⟩
  | removeV v =>
    obtain ⟨g', h1, h2, _, _⟩ := removeVertex_spec hwf v
    exact ⟨g', h1, h2⟩

lemma applySeq_preserves_WF :
    ∀ (ops : List GOp) (g : TPGGraph), WF g →
      ∃ g', applySeq ops g = some g' ∧ WF g' := by
  intro ops
  induction ops with
  | nil =>
    intro g hwf
    exact ⟨g, rfl, hwf⟩
  | cons op rest ih =>
    intro g hwf
    obtain ⟨g1, h1, hwf1⟩ := applyOp_preserves_WF hwf op
    obtain ⟨g', h2, hwf'⟩ := ih g1 hwf1
    refine ⟨g', ?_, hwf'⟩
    simp only [applySeq]
    rw [h1]
    exact h2

lemma filter_vid_singleton {l : List GVert} (hnd : (l.map (fun v => v.vid)).Nodup)
    {v : GVert} (hv : v ∈ l) :
    (l.filter (fun w => w.vid = v.vid)).length = 1 := by
  induction l with
  | nil => cases hv
  | cons x xs ih =>
    rw [List.map_cons, List.nodup_cons] at hnd
    rcases List.mem_cons.mp hv with heq | hv'
    · subst heq
      rw [List.filter_cons_of_pos (by simp)]
      have hnil : xs.filter (fun w => w.vid = v.vid) = [] := by
        rw [List.filter_eq_nil_iff]
        intro w hw
        simp only [decide_eq_true_eq]
        intro hc
        exact hnd.1 (hc ▸ List.mem_map_of_mem _ hw)
      simp [hnil]
    · rw [List.filter_cons_of_neg]
      · exact ih hnd.2 hv'
      · simp only [decide_eq_true_eq]
        intro hc
        exact hnd.1 (by rw [hc]; exact List.mem_map_of_mem _ hv')

end TPG

namespace TPG

/-- C6: `addNewEdge` fails with `invalidVertex` when either endpoint is
not registered, leaving the graph exactly as it was; it fails with
`actionSource` when the source is an Action vertex, and the rollback
(`edges.pop_back()` before rethrowing) leaves the edge collection and
every vertex's incidence sets exactly as they were before the call. -/
theorem addNewEdge_failure_all_or_nothing :
    (∀ (g : TPGGraph) (s d p : Nat),
        hasVert g s = false ∨ hasVert g d = false →
        addNewEdge g s d p = (.error .invalidVertex, g)) ∧
    (∀ (g : TPGGraph) (s d p : Nat) (sv : GVert),
        findVert g s = some sv → sv.isAction = true → hasVert g d = true →
        (addNewEdge g s d p).1 = .error .actionSource ∧
        (addNewEdge g s d p).2.edges = g.edges ∧
        (addNewEdge g s d p).2.verts = g.verts) := by
  constructor
  · intro g s d p h
    exact addNewEdge_invalid h
  · intro g s d p sv hfs hact hd
    rw [addNewEdge_action_compute hfs hact hd]
    exact ⟨rfl, List.dropLast_concat .., rfl⟩

/-- Witness for `addNewEdge_failure_all_or_nothing`: on the concrete graph
`exG`, adding an edge from the unregistered vertex 5 fails with
`invalidVertex` and leaves the graph untouched, and adding an edge out of
the Action vertex 2 fails with `actionSource` leaving the edge collection
and the vertex records untouched. -/
theorem addNewEdge_failure_all_or_nothing_witness :
    addNewEdge exG 5 0 1 = (.error .invalidVertex, exG) ∧
    ((addNewEdge exG 2 0 9).1 = .error .actionSource ∧
     (addNewEdge exG 2 0 9).2.edges = exG.edges ∧
     (addNewEdge exG 2 0 9).2.verts = exG.verts) :=
  ⟨addNewEdge_failure_all_or_nothing.1 exG 5 0 1 (Or.inl (by decide)),
   addNewEdge_failure_all_or_nothing.2 exG 2 0 9 ⟨2, true, [1], []⟩
     (by decide) (by decide) (by decide)⟩

/-- C7: starting from any well-formed graph, after any finite sequence of
`addNewEdge`/`removeVertex` calls the sequence completes and the resulting
graph has no dangling edges: every edge's source and destination are still
registered, and an edge identity appears in some vertex's incidence set if
and only if it is in the graph's edge collection. -/
theorem graph_no_dangling_edges :
    ∀ (g : TPGGraph) (ops : List GOp), WF g →
      ∃ g', applySeq ops g = some g' ∧
        (∀ e ∈ g'.edges, e.src ∈ vertIds g' ∧ e.dst ∈ vertIds g') ∧
        (∀ i : Nat, (∃ v ∈ g'.verts, i ∈ v.outE ∨ i ∈ v.inE) ↔ i ∈ edgeIds g') := by
  intro g ops hwf
  obtain ⟨g', h1, hwf'⟩ := applySeq_preserves_WF ops g hwf
  refine ⟨g', h1, hwf'.2.2.2.1, ?_⟩
  intro i
  constructor
  · rintro ⟨v, hv, hio | hii⟩
    · obtain ⟨e, he, heq, _⟩ := hwf'.2.2.2.2.1 v hv i hio
      exact mem_edgeIds.mpr ⟨e, he, heq⟩
    · obtain ⟨e, he, heq, _⟩ := hwf'.2.2.2.2.2.1 v hv i hii
      exact mem_edgeIds.mpr ⟨e, he, heq⟩
  · intro hi
    obtain ⟨e, he, heq⟩ := mem_edgeIds.mp hi
    obtain ⟨w, hw, hweq⟩ := mem_vertIds.mp (hwf'.2.2.2.1 e he).1
    exact ⟨w, hw, Or.inl (heq ▸ hwf'.2.2.2.2.2.2.1 e he w hw hweq)⟩

/-- Witness for `graph_no_dangling_edges`: the concrete well-formed graph
`exG` run through a sequence of two edge additions (one failing on an
Action source) and two vertex removals (one a no-op). -/
theorem graph_no_dangling_edges_witness :
    WF exG ∧
    ∃ g', applySeq [GOp.addEdge 0 2 55, GOp.removeV 1, GOp.addEdge 2 0 9,
        GOp.removeV 42] exG = some g' ∧
      (∀ e ∈ g'.edges, e.src ∈ vertIds g' ∧ e.dst ∈ vertIds g') ∧
      (∀ i : Nat, (∃ v ∈ g'.verts, i ∈ v.outE ∨ i ∈ v.inE) ↔ i ∈ edgeIds g') :=
  ⟨by decide, graph_no_dangling_edges exG
    [GOp.addEdge 0 2 55, GOp.removeV 1, GOp.addEdge 2 0 9, GOp.removeV 42]
    (by decide)⟩

/-- C8: `removeVertex` is a no-op when the vertex is not registered; when
it is registered in a well-formed graph, the call succeeds and leaves the
graph with exactly N fewer edges — N being the number of edges incident to
the vertex in either direction — and exactly one fewer vertex. -/
theorem removeVertex_edge_and_vertex_counts :
    (∀ (g : TPGGraph) (vid : Nat), hasVert g vid = false →
        removeVertex g vid = some g) ∧
    (∀ (g : TPGGraph) (vid : Nat), WF g → hasVert g vid = true →
        (removeVertex g vid).map (fun g2 => (g2.edges.length, g2.verts.length)) =
          some (g.edges.length -
              (g.edges.filter (fun e => e.src = vid ∨ e.dst = vid)).length,
            g.verts.length - 1)) := by
  constructor
  · intro g vid h
    rcases hfind : findVert g vid with _ | v
    · rw [removeVertex, hfind]
    · exfalso
      rw [hasVert, hfind] at h
      exact absurd h (by simp)
  · intro g vid hwf hreg
    obtain ⟨g', h1, _, hedges, hvlen⟩ := removeVertex_spec hwf vid
    rw [h1]
    show some (g'.edges.length, g'.verts.length) = _
    refine congrArg some (Prod.mk.injEq .. |>.mpr ⟨?_, ?_⟩)
    · rw [hedges]
      have hsplit := List.length_eq_length_filter_add
        (l := g.edges) (fun e => decide (e.src = vid ∨ e.dst = vid))
      have hcongr : g.edges.filter (fun e => ¬(e.src = vid ∨ e.dst = vid)) =
          g.edges.filter (fun e => !(decide (e.src = vid ∨ e.dst = vid))) :=
        List.filter_congr (fun e _ => by simp)
      rw [hcongr]
      omega
    · rw [hvlen]
      rcases hfind : findVert g vid with _ | v
      · exfalso
        rw [hasVert, hfind] at hreg
        exact absurd hreg (by simp)
      · obtain ⟨hv, hveq⟩ := findVert_eq_some hfind
        have hone : (g.verts.filter (fun w => w.vid = vid)).length = 1 := by
          rw [← hveq]
          exact filter_vid_singleton hwf.1 hv
        have hsplit := List.length_eq_length_filter_add
          (l := g.verts) (fun w => decide (w.vid = vid))
        have hcongr : g.verts.filter (fun w => w.vid ≠ vid) =
            g.verts.filter (fun w => !(decide (w.vid = vid))) :=
          List.filter_congr (fun w _ => by simp)
        rw [hcongr]
        omega

/-- Witness for `removeVertex_edge_and_vertex_counts`: removing vertex 1
of `exG` (incident to both edges, N = 2) leaves 0 edges and 2 vertices;
removing the unregistered vertex 42 is a no-op. -/
theorem removeVertex_edge_and_vertex_counts_witness :
    removeVertex exG 42 = some exG ∧
    (removeVertex exG 1).map (fun g2 => (g2.edges.length, g2.verts.length)) =
      some (exG.edges.length -
          (exG.edges.filter (fun e => e.src = 1 ∨ e.dst = 1)).length,
        exG.verts.length - 1) :=
  ⟨removeVertex_edge_and_vertex_counts.1 exG 42 (by decide),
   removeVertex_edge_and_vertex_counts.2 exG 1 (by decide) (by decide)⟩

/-- C9: when `removeEdge` is called on an edge that is not in the graph's
edge collection, the source does NOT perform the documented no-op: the
`find_if` iterator equals `end()` and the unconditional
`this->edges.erase(iterator)` erases the end iterator — undefined
behaviour in C++, modelled here as `none`. -/
theorem removeEdge_missing_edge_undefined :
    ∀ (g : TPGGraph) (eid : Nat),
      g.edges.find? (fun e => e.eid = eid) = none → removeEdge g eid = none := by
  intro g eid h
  rw [removeEdge, h]

/-- Witness for `removeEdge_missing_edge_undefined`: removing the absent
edge identity 7 from the concrete graph `exG` hits the undefined
`erase(end())`. -/
theorem removeEdge_missing_edge_undefined_witness :
    removeEdge exG 7 = none :=
  removeEdge_missing_edge_undefined exG 7 (by decide)

end TPG
